import Mathlib

/-!
Verification of the `mapper` crawler core (Go) against its specification.

Shallow embedding conventions:
* Go strings are modelled as `List Char` (`GoString`).
* `net/url.URL` is modelled by the fields the crawler touches
  (`Scheme`, `Host`, `Path`, `RawQuery`); fragments never reach a parsed
  URL in this code base because `normalizeURL` strips them textually first.
* Go maps used as sets (`seen map[string]bool`) are modelled as lists of
  keys with decidable membership.
* Wall-clock times (`time.Time`) are modelled as `Nat`, with `0` playing
  the role of Go's zero `time.Time` (`IsZero`).
* HTTP I/O and HTML parsing are modelled by an oracle `GoURL → FetchOutcome`
  supplying, per fetch, the final status, the parsed `Last-Modified` value,
  the current wall-clock reading, and the ordered raw `href` references the
  HTML traversal yields.
-/

namespace Mapper

abbrev GoString := List Char

/-- Helper turning a Lean string literal into the `List Char` model. -/
def toL (s : String) : GoString := s.toList

/-- Model of Go `strings.ToLower` (ASCII case mapping suffices here). -/
def goToLower (s : GoString) : GoString := s.map Char.toLower

/-- Model of Go `strings.HasSuffix s t`. -/
def goHasSuffix (s t : GoString) : Bool := decide (t <:+ s)

/-- Model of Go `strings.HasPrefix s t`. -/
def goStartsWith (s t : GoString) : Bool := decide (t <+: s)

/-- Model of Go `strings.TrimSuffix s t`: drop one copy of the suffix `t`
when present. -/
def goTrimSuffix (s t : GoString) : GoString :=
  if goHasSuffix s t then s.take (s.length - t.length) else s

/-- Model of the fields of Go `net/url.URL` used by the crawler. -/
structure GoURL where
  scheme : GoString
  host : GoString
  path : GoString
  rawQuery : GoString
deriving DecidableEq, Repr

/-- Model of Go `(*url.URL).String()` restricted to the modelled fields:
`scheme:` when a scheme is present, `//host` when a host is present, then
the path and `?rawQuery`. -/
def GoURL.toStr (u : GoURL) : GoString :=
  (if u.scheme = [] then [] else u.scheme ++ toL ":") ++
  (if u.host = [] then [] else toL "//" ++ u.host) ++
  u.path ++
  (if u.rawQuery = [] then [] else toL "?" ++ u.rawQuery)

/-! ## validator.go -/

/-- `URLValidator` from `validator.go`.  Compiled regular expressions are
modelled as their matching functions (`MatchString`). -/
structure URLValidator where
  baseURL : GoURL
  excludePatterns : List (GoString → Bool)
  includePatterns : List (GoString → Bool)

/-- The fixed extension list from `isNonContentFile` in `validator.go`. -/
def nonContentExts : List GoString :=
  [toL ".jpg", toL ".jpeg", toL ".png", toL ".gif", toL ".ico", toL ".css",
   toL ".js", toL ".pdf", toL ".doc", toL ".docx", toL ".ppt", toL ".pptx",
   toL ".xls", toL ".xlsx", toL ".zip", toL ".tar", toL ".gz", toL ".rar",
   toL ".exe", toL ".mp3", toL ".mp4", toL ".avi", toL ".mov", toL ".wmv",
   toL ".flv", toL ".svg", toL ".woff", toL ".woff2", toL ".ttf", toL ".eot"]

/-- `isNonContentFile` from `validator.go`: lowercase the path and test the
fixed extension list as path suffixes. -/
def isNonContentFile (path : GoString) : Bool :=
  let p := goToLower path
  nonContentExts.any (fun ext => goHasSuffix p ext)

/-- `IsValid` from `validator.go`: non-empty serialized form, `http`/`https`
scheme, host equal to the base host, no non-content extension, no exclude
match, and an include match when include patterns exist. -/
def URLValidator.IsValid (v : URLValidator) (u : GoURL) : Bool :=
  if u.toStr = [] then false
  else if ¬ (u.scheme = toL "http" ∨ u.scheme = toL "https") then false
  else if u.host ≠ v.baseURL.host then false
  else if isNonContentFile u.path then false
  else if v.excludePatterns.any (fun re => re u.toStr) then false
  else if 0 < v.includePatterns.length ∧
      ¬ v.includePatterns.any (fun re => re u.toStr) then false
  else true

/-- `NormalizePath` from `validator.go`: drop one trailing slash unless the
path is exactly `/`, then ensure a leading slash. -/
def NormalizePath (path : GoString) : GoString :=
  let p :=
    if path ≠ toL "/" ∧ goHasSuffix path (toL "/")
    then goTrimSuffix path (toL "/") else path
  if ¬ goStartsWith p (toL "/") then toL "/" ++ p else p

/-! ## queue.go (`URLQueue`) -/

/-- `QueueItem` from `queue.go`. -/
structure QueueItem where
  url : GoURL
  depth : Nat
deriving DecidableEq, Repr

/-- `URLQueue` from `queue.go`.  `enqLog` is a ghost field recording every
item ever appended to `queue`; it does not influence any computation and
exists so that "enqueued at most once over the whole crawl" is statable. -/
structure URLQueue where
  queue : List QueueItem
  seen : List GoString
  baseHost : GoString
  enqLog : List QueueItem
deriving DecidableEq, Repr

/-- `NewURLQueue` from `queue.go`. -/
def NewURLQueue (baseURL : GoURL) : URLQueue :=
  { queue := [], seen := [], baseHost := baseURL.host, enqLog := [] }

/-- One iteration of the loop body of `Push` in `queue.go`: skip if seen,
skip if the host differs from the base host, otherwise mark seen and append
to the queue. -/
def push1 (q : URLQueue) (u : GoURL) (depth : Nat) : URLQueue :=
  if u.toStr ∈ q.seen then q
  else if u.host ≠ q.baseHost then q
  else { q with
          seen := q.seen ++ [u.toStr],
          queue := q.queue ++ [⟨u, depth⟩],
          enqLog := q.enqLog ++ [⟨u, depth⟩] }

/-- `Push` from `queue.go`: the loop over the batch of candidate URLs. -/
def URLQueue.Push (q : URLQueue) (urls : List GoURL) (depth : Nat) : URLQueue :=
  urls.foldl (fun q u => push1 q u depth) q

/-- `Pop` from `queue.go`: remove and return the head item, or `none`. -/
def URLQueue.Pop (q : URLQueue) : Option QueueItem × URLQueue :=
  match q.queue with
  | [] => (none, q)
  | item :: rest => (some item, { q with queue := rest })

/-! ## Model of the `net/url` operations used by `page.go`
(`url.Parse`, `URL.IsAbs`, `URL.ResolveReference`). -/

/-- Result of Go `net/url`'s scheme splitting (`getScheme`):
either a parse error (`:` with an empty scheme), or a (possibly empty)
lowercased scheme together with the remainder. -/
inductive SchemeRes where
  | err
  | ok (scheme rest : GoString)
deriving DecidableEq, Repr

/-- Model of `getScheme` from `net/url`: a scheme is a leading alphabetic
character followed by alphanumerics or `+ - .`, delimited by `:`; `:` in
first position is an error; any other character before `:` means the
whole input has no scheme. -/
def getSchemeAux (orig acc : GoString) : GoString → SchemeRes
  | [] => .ok [] orig
  | c :: cs =>
    if c = ':' then
      if acc = [] then .err else .ok (goToLower acc) cs
    else if c.isAlpha then getSchemeAux orig (acc ++ [c]) cs
    else if acc ≠ [] ∧ (c.isDigit ∨ c = '+' ∨ c = '-' ∨ c = '.') then
      getSchemeAux orig (acc ++ [c]) cs
    else .ok [] orig

def getScheme (s : GoString) : SchemeRes := getSchemeAux s [] s

/-- Split at the first occurrence of `c` (Go `strings.Cut`): the separator
is dropped; when absent the second component is empty. -/
def goCut (s : GoString) (c : Char) : GoString × GoString :=
  (s.takeWhile (fun a => a ≠ c), (s.dropWhile (fun a => a ≠ c)).drop 1)

/-- Model of Go `url.Parse` on fragment-free input, restricted to the
modelled fields: split the scheme, split the query at the first `?`, and
when the remainder starts with `//` read the authority (host) up to the
next `/`.  A scheme-and-rest form without `//` keeps the rest in `path`
(this also serializes back like Go's handling of that form). -/
def goParseURL (s : GoString) : Option GoURL :=
  match getScheme s with
  | .err => none
  | .ok scheme rest =>
    let cut := goCut rest '?'
    let rest := cut.1
    let query := cut.2
    if goStartsWith rest (toL "//") then
      let rest2 := rest.drop 2
      some { scheme := scheme,
             host := rest2.takeWhile (fun a => a ≠ '/'),
             path := rest2.dropWhile (fun a => a ≠ '/'),
             rawQuery := query }
    else
      some { scheme := scheme, host := [], path := rest, rawQuery := query }

/-- `base[: strings.LastIndex(base, "/") + 1]`: the base path up to and
including its last slash (empty when there is no slash). -/
def upToLastSlash (s : GoString) : GoString :=
  (s.reverse.dropWhile (fun c => c ≠ '/')).reverse

/-- Dot-segment removal pass of `net/url.resolvePath`: `.` is dropped and
`..` pops the previous segment. -/
def removeDots (segs : List GoString) : List GoString :=
  segs.foldl
    (fun acc seg =>
      if seg = toL "." then acc
      else if seg = toL ".." then acc.dropLast
      else acc ++ [seg]) []

/-- Model of `net/url.resolvePath`: merge the reference path with the base
path (RFC 3986 §5.3), remove dot segments, keep a trailing slash after a
final `.`/`..`, and ensure a leading slash. -/
def resolvePath (base ref : GoString) : GoString :=
  let full :=
    if ref = [] then base
    else if goStartsWith ref (toL "/") then ref
    else upToLastSlash base ++ ref
  if full = [] then []
  else
    let segs := full.splitOn '/'
    let processed := removeDots segs
    let processed :=
      if segs.getLast? = some (toL ".") ∨ segs.getLast? = some (toL "..")
      then processed ++ [[]] else processed
    let joined := List.intercalate (toL "/") processed
    if ¬ goStartsWith joined (toL "/") then toL "/" ++ joined else joined

/-- Model of Go `(*url.URL).ResolveReference` restricted to the modelled
fields (no user info, no opaque part, fragments already stripped). -/
def GoURL.resolveReference (u ref : GoURL) : GoURL :=
  let scheme := if ref.scheme = [] then u.scheme else ref.scheme
  if ref.scheme ≠ [] ∨ ref.host ≠ [] then
    { scheme := scheme, host := ref.host,
      path := resolvePath ref.path [], rawQuery := ref.rawQuery }
  else
    let q := if ref.path = [] ∧ ref.rawQuery = [] then u.rawQuery
             else ref.rawQuery
    { scheme := scheme, host := u.host,
      path := resolvePath u.path ref.path, rawQuery := q }

/-! ## page.go -/

/-- Fragment removal step of `normalizeURL` in `page.go`
(`strings.Index(rawURL, "#")` then truncation). -/
def stripFragment (raw : GoString) : GoString :=
  raw.takeWhile (fun c => c ≠ '#')

/-- `normalizeURL` from `page.go`: strip the fragment, drop empty and
`javascript:` references, parse, resolve relative references against the
page URL, and default a still-missing scheme to `https`. -/
def normalizeURL (pageURL : GoURL) (rawURL : GoString) : Option GoURL :=
  let raw := stripFragment rawURL
  if raw = [] ∨ goStartsWith raw (toL "javascript:") then none
  else
    match goParseURL raw with
    | none => none
    | some parsed =>
      let parsed :=
        if parsed.scheme = [] then pageURL.resolveReference parsed else parsed
      let parsed :=
        if parsed.scheme = [] then { parsed with scheme := toL "https" }
        else parsed
      some parsed

/-- Tail of `uniqueURLs` from `page.go`, with the `seen` keys and the
accumulator made explicit. -/
def uniqueURLsAux (seen : List GoString) (acc : List GoURL) :
    List GoURL → List GoURL
  | [] => acc
  | u :: rest =>
    if u.toStr ∈ seen then uniqueURLsAux seen acc rest
    else uniqueURLsAux (seen ++ [u.toStr]) (acc ++ [u]) rest

/-- `uniqueURLs` from `page.go`: deduplicate by the serialized URL string,
keeping the first occurrence, preserving order. -/
def uniqueURLs (urls : List GoURL) : List GoURL := uniqueURLsAux [] [] urls

/-- Outcome of parsing the response body in `parseHTML`: either the HTML
parser fails, or it yields the ordered raw `href` references of the
document (anchors and canonical/alternate links, in traversal order). -/
inductive BodyOutcome where
  | parseError
  | docRefs (refs : List GoString)
deriving DecidableEq, Repr

/-- Outcome of one HTTP GET in `Process`: transport-level failure, or a
final response carrying the status, the parsed `Last-Modified` value when
the header is present and parses (`0` = Go's zero time), the wall clock
`time.Now()` reading at that fetch, and the body. -/
inductive FetchOutcome where
  | netError
  | response (status : Nat) (lastModParsed : Option Nat) (now : Nat)
      (body : BodyOutcome)
deriving DecidableEq, Repr

/-- The error cases `Process` in `page.go` can return. -/
inductive FetchErr where
  | netErr
  | badStatus (code : Nat)
  | parseErr
deriving DecidableEq, Repr

/-- The page fields produced by one `Process` call. -/
structure PageResult where
  lastModified : Nat
  links : List GoURL
  err : Option FetchErr
deriving DecidableEq, Repr

/-- `Process` (and `parseHTML`) from `page.go`: error on transport failure;
error (without touching the body) on a non-200 final status; otherwise set
`LastModified` from the parsed header or `time.Now()` when absent,
unparsable, or zero; then parse the body and extract the normalized,
deduplicated links. -/
def processPage (pageURL : GoURL) (o : FetchOutcome) : PageResult :=
  match o with
  | .netError => { lastModified := 0, links := [], err := some .netErr }
  | .response status lm now body =>
    if status ≠ 200 then
      { lastModified := 0, links := [], err := some (.badStatus status) }
    else
      let t0 := match lm with | some t => t | none => 0
      let t := if t0 = 0 then now else t0
      match body with
      | .parseError => { lastModified := t, links := [], err := some .parseErr }
      | .docRefs refs =>
        { lastModified := t,
          links := uniqueURLs (refs.filterMap (normalizeURL pageURL)),
          err := none }

/-! ## crawler.go -/

/-- `Result` from `crawler.go` (the wall-clock `TimeToFetch` duration is
not modelled). -/
structure ResultR where
  url : GoString
  lastMod : Nat
  statusCode : Nat
  err : Option FetchErr
  depth : Nat
deriving DecidableEq, Repr

/-- The configuration fields of `Config` that the worker loop reads. -/
structure Config where
  baseURL : GoURL
  maxDepth : Nat
  excludePatterns : List (GoString → Bool)
  includePatterns : List (GoString → Bool)

/-- The `URLValidator` the crawler constructor builds from its config. -/
def Config.validator (cfg : Config) : URLValidator :=
  { baseURL := cfg.baseURL,
    excludePatterns := cfg.excludePatterns,
    includePatterns := cfg.includePatterns }

/-- State threaded through the sequential (single-worker) crawl model.
`fetchedLog` is a ghost log with one entry per `page.Process` call, so that
"this URL is never fetched" is statable; `results` receives one record per
emission on the `results` channel. -/
structure CrawlState where
  frontier : URLQueue
  results : List ResultR
  fetchedLog : List GoURL
  processed : Nat
  errors : Nat
deriving DecidableEq, Repr

/-- One iteration of the `for` loop in `worker` (`crawler.go`), without the
cancellation branch: pop (a `nil` pop makes the worker return, modelled as
`none`); skip invalid items; skip items beyond `maxDepth`; otherwise fetch,
update the statistics, emit exactly one `Result` — with `StatusCode`
hardcoded to `http.StatusOK` as in the source — and push the page links at
`depth+1` when the fetch succeeded. -/
def workerStep (cfg : Config) (oracle : GoURL → FetchOutcome)
    (st : CrawlState) : Option CrawlState :=
  match st.frontier.Pop with
  | (none, _) => none
  | (some item, fr) =>
    if ¬ cfg.validator.IsValid item.url then some { st with frontier := fr }
    else if cfg.maxDepth < item.depth then some { st with frontier := fr }
    else
      let page := processPage item.url (oracle item.url)
      let st1 : CrawlState :=
        { frontier := fr,
          results := st.results ++
            [{ url := item.url.toStr, lastMod := page.lastModified,
               statusCode := 200, err := page.err, depth := item.depth }],
          fetchedLog := st.fetchedLog ++ [item.url],
          processed := st.processed + 1,
          errors := st.errors + (if page.err = none then 0 else 1) }
      some (if page.err = none then
              { st1 with frontier := st1.frontier.Push page.links (item.depth + 1) }
            else st1)

/-- The initial crawl state built by `Start` in `crawler.go`: the seed URL
pushed at depth `0`. -/
def initState (cfg : Config) : CrawlState :=
  { frontier := (NewURLQueue cfg.baseURL).Push [cfg.baseURL] 0,
    results := [], fetchedLog := [], processed := 0, errors := 0 }

/-- Fuel-bounded iteration of `workerStep` (the worker loop run by a single
worker until its `Pop` returns `nil`). -/
def runWorker (cfg : Config) (oracle : GoURL → FetchOutcome) :
    Nat → CrawlState → CrawlState
  | 0, st => st
  | n + 1, st =>
    match workerStep cfg oracle st with
    | none => st
    | some st' => runWorker cfg oracle n st'

/-! ## Multi-worker interleaving model for `worker` (`crawler.go`)

The mutex in `URLQueue` serializes every queue mutation, so a concurrent
run is an interleaving of per-worker steps.  The one suspension point
inside a loop iteration is the HTTP fetch, so a worker is either `idle`
(about to call `Pop`), `inFlight` on an item (its fetch has started but
its result/push have not happened), or `stopped` (its `worker` function
returned). -/

inductive WStatus where
  | idle
  | inFlight (item : QueueItem)
  | stopped
deriving DecidableEq, Repr

/-- Global state of the worker pool. -/
structure MState where
  frontier : URLQueue
  workers : List WStatus
  results : List ResultR
  fetchedLog : List GoURL
deriving DecidableEq, Repr

/-- One scheduled step of worker `i`, following `worker` in `crawler.go`:
an idle worker pops — returning (becoming `stopped`) when `Pop` yields
`nil`, skipping invalid or too-deep items, and otherwise starting the
fetch; an in-flight worker finishes its fetch, emits its `Result`, and
pushes the page links when the fetch succeeded. -/
def mStep (cfg : Config) (oracle : GoURL → FetchOutcome)
    (st : MState) (i : Nat) : MState :=
  match st.workers[i]? with
  | none => st
  | some .stopped => st
  | some .idle =>
    match st.frontier.Pop with
    | (none, _) => { st with workers := st.workers.set i .stopped }
    | (some item, fr) =>
      if ¬ cfg.validator.IsValid item.url then { st with frontier := fr }
      else if cfg.maxDepth < item.depth then { st with frontier := fr }
      else
        { st with frontier := fr,
                  workers := st.workers.set i (.inFlight item),
                  fetchedLog := st.fetchedLog ++ [item.url] }
  | some (.inFlight item) =>
    let page := processPage item.url (oracle item.url)
    let st1 : MState :=
      { st with
          workers := st.workers.set i .idle,
          results := st.results ++
            [{ url := item.url.toStr, lastMod := page.lastModified,
               statusCode := 200, err := page.err, depth := item.depth }] }
    if page.err = none then
      { st1 with frontier := st1.frontier.Push page.links (item.depth + 1) }
    else st1

/-- Initial pool state: the seed pushed at depth `0`, `n` idle workers. -/
def initM (cfg : Config) (n : Nat) : MState :=
  { frontier := (NewURLQueue cfg.baseURL).Push [cfg.baseURL] 0,
    workers := List.replicate n .idle, results := [], fetchedLog := [] }

/-- Run a concrete schedule (list of worker indices) through `mStep`. -/
def runSched (cfg : Config) (oracle : GoURL → FetchOutcome)
    (st : MState) (sched : List Nat) : MState :=
  sched.foldl (mStep cfg oracle) st

/-! ## Whole-crawl frontier histories (for the at-most-once admission claim)

Every mutation of `URLQueue` goes through its mutex, so any concurrent
crawl, restricted to the frontier, is a finite sequence of `Push` and
`Pop` calls applied in some order. -/

/-- A serialized frontier operation. -/
inductive QOp where
  | push (urls : List GoURL) (depth : Nat)
  | pop
deriving Repr

/-- Apply one serialized frontier operation (a `Pop`'s returned item is
irrelevant to the frontier state). -/
def applyOp (q : URLQueue) : QOp → URLQueue
  | .push urls d => q.Push urls d
  | .pop => (q.Pop).2

/-- Apply a whole serialized history of frontier operations. -/
def applyOps (q : URLQueue) (ops : List QOp) : URLQueue :=
  ops.foldl applyOp q

/-- Number of times a URL serializing to `s` was ever enqueued (ghost-log
count). -/
def enqCount (q : URLQueue) (s : GoString) : Nat :=
  q.enqLog.countP (fun it => decide (it.url.toStr = s))

/-- Frontier invariant: every URL string was enqueued at most once, and
every enqueued URL string is in the seen set. -/
def QInv (q : URLQueue) : Prop :=
  (∀ s, enqCount q s ≤ 1) ∧ ∀ it ∈ q.enqLog, it.url.toStr ∈ q.seen

/-- Recursion of `uniqueURLs` with only the seen keys explicit (the
accumulator of `uniqueURLsAux` made implicit); used to reason about
`uniqueURLs`. -/
def dedupFrom (seen : List GoString) : List GoURL → List GoURL
  | [] => []
  | u :: rest =>
    if u.toStr ∈ seen then dedupFrom seen rest
    else u :: dedupFrom (seen ++ [u.toStr]) rest

/-! ## Concrete crawl fixtures -/

/-- Seed URL `https://example.com/`. -/
def exBase : GoURL :=
  { scheme := toL "https", host := toL "example.com", path := toL "/",
    rawQuery := [] }

/-- A page URL `https://example.com/a/` used for link-resolution checks. -/
def exPage : GoURL :=
  { scheme := toL "https", host := toL "example.com", path := toL "/a/",
    rawQuery := [] }

/-- An `http` page URL, for the scheme-inheritance check. -/
def exHttpPage : GoURL :=
  { scheme := toL "http", host := toL "example.com", path := toL "/",
    rawQuery := [] }

/-- The same-host child link `https://example.com/a`. -/
def exChildA : GoURL :=
  { scheme := toL "https", host := toL "example.com", path := toL "/a",
    rawQuery := [] }

/-- A same-host URL with a non-content extension. -/
def uPng : GoURL :=
  { scheme := toL "https", host := toL "example.com", path := toL "/img.png",
    rawQuery := [] }

/-- Validator over `exBase` with no configured patterns. -/
def exValidator : URLValidator :=
  { baseURL := exBase, excludePatterns := [], includePatterns := [] }

/-- Config over `exBase`, `maxDepth = 3`, no patterns. -/
def exCfg : Config :=
  { baseURL := exBase, maxDepth := 3, excludePatterns := [],
    includePatterns := [] }

/-- Config over `exBase` with `maxDepth = 0`. -/
def cfgD0 : Config :=
  { baseURL := exBase, maxDepth := 0, excludePatterns := [],
    includePatterns := [] }

/-- Oracle: every page responds `200` with no `Last-Modified` header and no
links. -/
def oracleEmpty : GoURL → FetchOutcome :=
  fun _ => .response 200 none 1 (.docRefs [])

/-- Oracle: every page responds `200` with a same-host link `/a` and a
cross-host link. -/
def oracleChild : GoURL → FetchOutcome :=
  fun _ => .response 200 none 7 (.docRefs [toL "/a", toL "https://other.com/c"])

/-- Oracle: every fetch ends with final status `404`; the body (never
parsed on a non-200 status) even contains an admissible link. -/
def oracle404 : GoURL → FetchOutcome :=
  fun _ => .response 404 none 9 (.docRefs [toL "/a"])

/-- Oracle: every fetch fails at the transport level. -/
def oracleNet : GoURL → FetchOutcome := fun _ => .netError

/-- A one-item crawl state holding the seed, with the seed marked seen
(as after `Start`'s initial push). -/
def stSeed : CrawlState :=
  { frontier := (NewURLQueue exBase).Push [exBase] 0,
    results := [], fetchedLog := [], processed := 0, errors := 0 }

/-- A one-item crawl state whose queued item is `uPng` (admitted by `Push`,
invalid for `IsValid`). -/
def stPng : CrawlState :=
  { frontier := (NewURLQueue exBase).Push [uPng] 0,
    results := [], fetchedLog := [], processed := 0, errors := 0 }


theorem pop_cons (q : URLQueue) (item : QueueItem) (rest : List QueueItem)
    (h : q.queue = item :: rest) :
    q.Pop = (some item, { q with queue := rest }) := by
  simp [URLQueue.Pop, h]

theorem workerStep_skip (cfg : Config) (oracle : GoURL → FetchOutcome)
    (st : CrawlState) (item : QueueItem) (rest : List QueueItem)
    (h : st.frontier.queue = item :: rest)
    (hskip : cfg.validator.IsValid item.url = false ∨ cfg.maxDepth < item.depth) :
    workerStep cfg oracle st =
      some { st with frontier := { st.frontier with queue := rest } } := by
  unfold workerStep
  rw [pop_cons _ _ _ h]
  rcases hskip with hv | hd
  · simp [hv]
  · by_cases hv : cfg.validator.IsValid item.url
    · simp [hv, hd]
    · simp [hv]

theorem workerStep_fetch (cfg : Config) (oracle : GoURL → FetchOutcome)
    (st : CrawlState) (item : QueueItem) (rest : List QueueItem)
    (h : st.frontier.queue = item :: rest)
    (hv : cfg.validator.IsValid item.url = true)
    (hd : item.depth ≤ cfg.maxDepth) :
    workerStep cfg oracle st =
      (let page := processPage item.url (oracle item.url)
       let st1 : CrawlState :=
        { frontier := { st.frontier with queue := rest },
          results := st.results ++
            [{ url := item.url.toStr, lastMod := page.lastModified,
               statusCode := 200, err := page.err, depth := item.depth }],
          fetchedLog := st.fetchedLog ++ [item.url],
          processed := st.processed + 1,
          errors := st.errors + (if page.err = none then 0 else 1) }
       some (if page.err = none then
              { st1 with frontier := st1.frontier.Push page.links (item.depth + 1) }
            else st1)) := by
  unfold workerStep
  rw [pop_cons _ _ _ h]
  simp [hv, Nat.not_lt.mpr hd]


/-- Claim C1 (code evaluation): with two workers and the frontier
momentarily empty because worker 0 holds the seed in flight, worker 1's
`Pop` returns `nil` and worker 1 stops — the worker loop exits on an empty
queue regardless of in-flight fetches. -/
theorem worker_exits_on_momentarily_empty_frontier :
    (runSched exCfg oracleEmpty (initM exCfg 2) [0]).frontier.queue = [] ∧
    (runSched exCfg oracleEmpty (initM exCfg 2) [0]).workers =
      [.inFlight ⟨exBase, 0⟩, .idle] ∧
    (runSched exCfg oracleEmpty (initM exCfg 2) [0, 1]).workers =
      [.inFlight ⟨exBase, 0⟩, .stopped] := by decide

/-- Claim C2 (counterexample): `Push` enqueues a never-seen same-host URL
that fails the full Admission Policy (non-content extension `.png`). -/
theorem push_enqueues_url_failing_admission_policy :
    uPng.toStr ∉ (NewURLQueue exBase).seen ∧
    exValidator.IsValid uPng = false ∧
    ((NewURLQueue exBase).Push [uPng] 0).queue = [⟨uPng, 0⟩] := by decide

/-- Claim C2 (amended): `Push` marks a URL seen and enqueues it iff it is
not already seen and its host equals the base host; the remaining admission
rules are not consulted at admission time. -/
theorem push_admission_checks_seen_and_host_only :
    ∀ (q : URLQueue) (u : GoURL) (d : Nat),
      (u.toStr ∉ q.seen ∧ u.host = q.baseHost →
        push1 q u d = { q with seen := q.seen ++ [u.toStr],
                               queue := q.queue ++ [⟨u, d⟩],
                               enqLog := q.enqLog ++ [⟨u, d⟩] }) ∧
      (u.toStr ∈ q.seen ∨ u.host ≠ q.baseHost → push1 q u d = q) := by
  intro q u d
  constructor
  · rintro ⟨hseen, hhost⟩
    simp [push1, hseen, hhost]
  · rintro (hseen | hhost)
    · simp [push1, hseen]
    · simp [push1, hhost]

theorem push_admission_checks_seen_and_host_only_witness :
    (push1 (NewURLQueue exBase) uPng 0 =
      { NewURLQueue exBase with
          seen := (NewURLQueue exBase).seen ++ [uPng.toStr],
          queue := (NewURLQueue exBase).queue ++ [⟨uPng, 0⟩],
          enqLog := (NewURLQueue exBase).enqLog ++ [⟨uPng, 0⟩] }) ∧
    (push1 ((NewURLQueue exBase).Push [uPng] 0) uPng 5 =
      (NewURLQueue exBase).Push [uPng] 0) :=
  ⟨(push_admission_checks_seen_and_host_only (NewURLQueue exBase) uPng 0).1
      ⟨by decide, by decide⟩,
   (push_admission_checks_seen_and_host_only
      ((NewURLQueue exBase).Push [uPng] 0) uPng 5).2 (Or.inl (by decide))⟩


/-- Claim C3 (counterexample): with `maxDepth = 0`, the same-host child
link discovered on the seed page is enqueued into the Frontier at depth
`1 > maxDepth`. -/
theorem deep_item_enqueued_with_maxDepth_zero :
    (⟨exChildA, 1⟩ : QueueItem) ∈
      (runWorker cfgD0 oracleChild 5 (initState cfgD0)).frontier.enqLog ∧
    cfgD0.maxDepth < 1 := by decide

/-- Claim C3 (amended): the depth bound is enforced at dequeue time, not
admission time: a dequeued item beyond `maxDepth` is dropped without a
fetch or a Result; and the `maxDepth = 0` crawl yields exactly one Result
and fetches only the seed, while the same-host child link is admitted into
the Frontier at depth 1 and never fetched. -/
theorem depth_bound_enforced_at_dequeue_not_admission :
    (∀ (cfg : Config) (oracle : GoURL → FetchOutcome) (st : CrawlState)
       (item : QueueItem) (rest : List QueueItem),
       st.frontier.queue = item :: rest →
       cfg.maxDepth < item.depth →
       workerStep cfg oracle st =
         some { st with frontier := { st.frontier with queue := rest } }) ∧
    (runWorker cfgD0 oracleChild 5 (initState cfgD0)).results.length = 1 ∧
    (runWorker cfgD0 oracleChild 5 (initState cfgD0)).fetchedLog = [exBase] ∧
    (⟨exChildA, 1⟩ : QueueItem) ∈
      (runWorker cfgD0 oracleChild 5 (initState cfgD0)).frontier.enqLog := by
  refine ⟨?_, by decide, by decide, by decide⟩
  intro cfg oracle st item rest h hd
  exact workerStep_skip cfg oracle st item rest h (Or.inr hd)

theorem depth_bound_enforced_at_dequeue_not_admission_witness :
    workerStep cfgD0 oracleChild
      { frontier := { queue := [⟨exChildA, 9⟩], seen := [exChildA.toStr],
                      baseHost := toL "example.com", enqLog := [⟨exChildA, 9⟩] },
        results := [], fetchedLog := [], processed := 0, errors := 0 } =
      some { frontier := { queue := [], seen := [exChildA.toStr],
                           baseHost := toL "example.com",
                           enqLog := [⟨exChildA, 9⟩] },
             results := [], fetchedLog := [], processed := 0, errors := 0 } :=
  (depth_bound_enforced_at_dequeue_not_admission).1 cfgD0 oracleChild _
    ⟨exChildA, 9⟩ [] (by decide) (by decide)

/-- Claim C4: a dequeued WorkItem that fails `IsValid` or lies beyond
`maxDepth` is skipped: no fetch is issued for it, no Result is emitted, and
nothing is admitted to the Frontier. -/
theorem dequeued_invalid_or_deep_item_skipped_without_fetch :
    ∀ (cfg : Config) (oracle : GoURL → FetchOutcome) (st : CrawlState)
      (item : QueueItem) (rest : List QueueItem),
      st.frontier.queue = item :: rest →
      (cfg.validator.IsValid item.url = false ∨ cfg.maxDepth < item.depth) →
      ∃ st', workerStep cfg oracle st = some st' ∧
        st'.fetchedLog = st.fetchedLog ∧
        st'.results = st.results ∧
        st'.frontier.queue = rest ∧
        st'.frontier.enqLog = st.frontier.enqLog ∧
        st'.frontier.seen = st.frontier.seen := by
  intro cfg oracle st item rest h hskip
  exact ⟨_, workerStep_skip cfg oracle st item rest h hskip,
         rfl, rfl, rfl, rfl, rfl⟩

theorem dequeued_invalid_or_deep_item_skipped_without_fetch_witness :
    ∃ st', workerStep exCfg oracleEmpty stPng = some st' ∧
      st'.fetchedLog = stPng.fetchedLog ∧
      st'.results = stPng.results ∧
      st'.frontier.queue = [] ∧
      st'.frontier.enqLog = stPng.frontier.enqLog ∧
      st'.frontier.seen = stPng.frontier.seen :=
  dequeued_invalid_or_deep_item_skipped_without_fetch exCfg oracleEmpty stPng
    ⟨uPng, 0⟩ [] (by decide) (Or.inl (by decide))


theorem workerStep_fetch_err (cfg : Config) (oracle : GoURL → FetchOutcome)
    (st : CrawlState) (item : QueueItem) (rest : List QueueItem)
    (h : st.frontier.queue = item :: rest)
    (hv : cfg.validator.IsValid item.url = true)
    (hd : item.depth ≤ cfg.maxDepth)
    (herr : (processPage item.url (oracle item.url)).err ≠ none) :
    workerStep cfg oracle st = some
      { frontier := { st.frontier with queue := rest },
        results := st.results ++
          [{ url := item.url.toStr,
             lastMod := (processPage item.url (oracle item.url)).lastModified,
             statusCode := 200,
             err := (processPage item.url (oracle item.url)).err,
             depth := item.depth }],
        fetchedLog := st.fetchedLog ++ [item.url],
        processed := st.processed + 1,
        errors := st.errors + 1 } := by
  rw [workerStep_fetch cfg oracle st item rest h hv hd]
  simp only [if_neg herr]

theorem workerStep_fetch_ok (cfg : Config) (oracle : GoURL → FetchOutcome)
    (st : CrawlState) (item : QueueItem) (rest : List QueueItem)
    (h : st.frontier.queue = item :: rest)
    (hv : cfg.validator.IsValid item.url = true)
    (hd : item.depth ≤ cfg.maxDepth)
    (herr : (processPage item.url (oracle item.url)).err = none) :
    workerStep cfg oracle st = some
      { frontier := URLQueue.Push { st.frontier with queue := rest }
          (processPage item.url (oracle item.url)).links (item.depth + 1),
        results := st.results ++
          [{ url := item.url.toStr,
             lastMod := (processPage item.url (oracle item.url)).lastModified,
             statusCode := 200,
             err := (processPage item.url (oracle item.url)).err,
             depth := item.depth }],
        fetchedLog := st.fetchedLog ++ [item.url],
        processed := st.processed + 1,
        errors := st.errors } := by
  rw [workerStep_fetch cfg oracle st item rest h hv hd]
  simp [herr]

/-- Claim C6 (code evaluation): a fetch ending with a non-200 final status
is recorded as a fetch error and the body is never parsed (the result holds
for every body, and nothing is admitted to the Frontier), but the emitted
Result's `StatusCode` field is the hardcoded `http.StatusOK` (200), not the
actual final status. -/
theorem non200_result_statusCode_hardcoded_200 :
    ∀ (cfg : Config) (oracle : GoURL → FetchOutcome) (st : CrawlState)
      (item : QueueItem) (rest : List QueueItem)
      (status : Nat) (lm : Option Nat) (now : Nat) (body : BodyOutcome),
      st.frontier.queue = item :: rest →
      cfg.validator.IsValid item.url = true →
      item.depth ≤ cfg.maxDepth →
      oracle item.url = .response status lm now body →
      status ≠ 200 →
      ∃ st', workerStep cfg oracle st = some st' ∧
        st'.results = st.results ++
          [{ url := item.url.toStr, lastMod := 0, statusCode := 200,
             err := some (.badStatus status), depth := item.depth }] ∧
        st'.frontier.queue = rest ∧
        st'.frontier.enqLog = st.frontier.enqLog ∧
        st'.frontier.seen = st.frontier.seen := by
  intro cfg oracle st item rest status lm now body h hv hd ho hs
  have hpage : processPage item.url (oracle item.url) =
      { lastModified := 0, links := [], err := some (.badStatus status) } := by
    rw [ho]; simp [processPage, hs]
  have herr : (processPage item.url (oracle item.url)).err ≠ none := by
    rw [hpage]; simp
  refine ⟨_, workerStep_fetch_err cfg oracle st item rest h hv hd herr,
          ?_, rfl, rfl, rfl⟩
  rw [hpage]

theorem non200_result_statusCode_hardcoded_200_witness :
    ∃ st', workerStep exCfg oracle404 stSeed = some st' ∧
      st'.results = stSeed.results ++
        [{ url := exBase.toStr, lastMod := 0, statusCode := 200,
           err := some (.badStatus 404), depth := 0 }] ∧
      st'.frontier.queue = [] ∧
      st'.frontier.enqLog = stSeed.frontier.enqLog ∧
      st'.frontier.seen = stSeed.frontier.seen :=
  non200_result_statusCode_hardcoded_200 exCfg oracle404 stSeed
    ⟨exBase, 0⟩ [] 404 none 9 (.docRefs [toL "/a"])
    (by decide) (by decide) (by decide) (by decide) (by decide)

/-- Claim C7: every fetch attempt on a dequeued, valid, depth-bounded item
emits exactly one Result, whose `Error` field carries the fetch error when
one occurred; `workerStep` is a total function (no error propagates out of
the pipeline), and a failed fetch admits nothing to the Frontier. -/
theorem every_fetch_attempt_emits_exactly_one_result :
    ∀ (cfg : Config) (oracle : GoURL → FetchOutcome) (st : CrawlState)
      (item : QueueItem) (rest : List QueueItem),
      st.frontier.queue = item :: rest →
      cfg.validator.IsValid item.url = true →
      item.depth ≤ cfg.maxDepth →
      ∃ st', workerStep cfg oracle st = some st' ∧
        st'.results = st.results ++
          [{ url := item.url.toStr,
             lastMod := (processPage item.url (oracle item.url)).lastModified,
             statusCode := 200,
             err := (processPage item.url (oracle item.url)).err,
             depth := item.depth }] ∧
        st'.fetchedLog = st.fetchedLog ++ [item.url] ∧
        ((processPage item.url (oracle item.url)).err ≠ none →
          st'.frontier.queue = rest ∧
          st'.frontier.enqLog = st.frontier.enqLog ∧
          st'.frontier.seen = st.frontier.seen) := by
  intro cfg oracle st item rest h hv hd
  by_cases herr : (processPage item.url (oracle item.url)).err = none
  · refine ⟨_, workerStep_fetch_ok cfg oracle st item rest h hv hd herr,
            rfl, rfl, fun hne => absurd herr hne⟩
  · refine ⟨_, workerStep_fetch_err cfg oracle st item rest h hv hd herr,
            rfl, rfl, fun _ => ⟨rfl, rfl, rfl⟩⟩

theorem every_fetch_attempt_emits_exactly_one_result_witness :
    ∃ st', workerStep exCfg oracleNet stSeed = some st' ∧
      st'.results = stSeed.results ++
        [{ url := exBase.toStr,
           lastMod := (processPage exBase (oracleNet exBase)).lastModified,
           statusCode := 200,
           err := (processPage exBase (oracleNet exBase)).err,
           depth := 0 }] ∧
      st'.fetchedLog = stSeed.fetchedLog ++ [exBase] ∧
      ((processPage exBase (oracleNet exBase)).err ≠ none →
        st'.frontier.queue = [] ∧
        st'.frontier.enqLog = stSeed.frontier.enqLog ∧
        st'.frontier.seen = stSeed.frontier.seen) :=
  every_fetch_attempt_emits_exactly_one_result exCfg oracleNet stSeed
    ⟨exBase, 0⟩ [] (by decide) (by decide) (by decide)


theorem qinv_push1 (q : URLQueue) (u : GoURL) (d : Nat) (hq : QInv q) :
    QInv (push1 q u d) := by
  unfold push1
  split
  · exact hq
  · split
    · exact hq
    · next hseen hhost =>
      obtain ⟨h1, h2⟩ := hq
      constructor
      · intro s
        show (q.enqLog ++ [(⟨u, d⟩ : QueueItem)]).countP
            (fun it => decide (it.url.toStr = s)) ≤ 1
        rw [List.countP_append]
        by_cases hs : u.toStr = s
        · have hzero : q.enqLog.countP (fun it => decide (it.url.toStr = s)) = 0 := by
            rw [List.countP_eq_zero]
            intro it hit
            simp only [decide_eq_true_eq]
            intro heq
            exact hseen (hs ▸ heq ▸ h2 it hit)
          rw [hzero, Nat.zero_add]
          exact List.countP_le_length _
        · have hzero : List.countP (fun it => decide (it.url.toStr = s))
              [(⟨u, d⟩ : QueueItem)] = 0 := by
            simp [hs]
          rw [hzero, Nat.add_zero]
          exact h1 s
      · intro it hit
        rw [List.mem_append] at hit
        rcases hit with hmem | hmem
        · exact List.mem_append_left _ (h2 it hmem)
        · have : it = ⟨u, d⟩ := by simpa using hmem
          subst this
          exact List.mem_append_right _ (by simp)

theorem qinv_push (q : URLQueue) (urls : List GoURL) (d : Nat) (hq : QInv q) :
    QInv (q.Push urls d) := by
  induction urls generalizing q with
  | nil => exact hq
  | cons u rest ih =>
    show QInv (List.foldl (fun q u => push1 q u d) q (u :: rest))
    rw [List.foldl_cons]
    exact ih (push1 q u d) (qinv_push1 q u d hq)

theorem qinv_pop (q : URLQueue) (hq : QInv q) : QInv ((q.Pop).2) := by
  cases h : q.queue with
  | nil => simp only [URLQueue.Pop, h]; exact hq
  | cons a l => simp only [URLQueue.Pop, h]; exact ⟨hq.1, hq.2⟩

theorem qinv_init (base : GoURL) : QInv (NewURLQueue base) := by
  constructor
  · intro s
    simp [enqCount, NewURLQueue]
  · intro it hit
    simp [NewURLQueue] at hit

theorem qinv_applyOps (q : URLQueue) (ops : List QOp) (hq : QInv q) :
    QInv (applyOps q ops) := by
  induction ops generalizing q with
  | nil => exact hq
  | cons op rest ih =>
    show QInv (List.foldl applyOp q (op :: rest))
    rw [List.foldl_cons]
    refine ih (applyOp q op) ?_
    cases op with
    | push urls d => exact qinv_push q urls d hq
    | pop => exact qinv_pop q hq

/-- Claim C5: over any serialized history of frontier operations starting
from a fresh queue, each URL string is enqueued at most once; the seen set
only grows (under both `Push` and `Pop`), and re-admitting a seen URL
string is a no-op. -/
theorem frontier_admits_each_url_string_at_most_once :
    (∀ (base : GoURL) (ops : List QOp) (s : GoString),
       enqCount (applyOps (NewURLQueue base) ops) s ≤ 1) ∧
    (∀ (q : URLQueue) (u : GoURL) (d : Nat), q.seen ⊆ (push1 q u d).seen) ∧
    (∀ (q : URLQueue), ((q.Pop).2).seen = q.seen) ∧
    (∀ (q : URLQueue) (u : GoURL) (d : Nat),
       u.toStr ∈ q.seen → push1 q u d = q) := by
  refine ⟨?_, ?_, ?_, ?_⟩
  · intro base ops s
    exact (qinv_applyOps (NewURLQueue base) ops (qinv_init base)).1 s
  · intro q u d
    unfold push1
    split
    · exact fun x hx => hx
    · split
      · exact fun x hx => hx
      · intro x hx
        exact List.mem_append_left _ hx
  · intro q
    cases h : q.queue <;> simp [URLQueue.Pop, h]
  · intro q u d hseen
    unfold push1
    rw [if_pos hseen]

theorem frontier_admits_each_url_string_at_most_once_witness :
    enqCount (applyOps (NewURLQueue exBase)
        [.push [uPng, uPng] 0, .pop, .push [uPng] 3]) uPng.toStr ≤ 1 ∧
    push1 ((NewURLQueue exBase).Push [uPng] 0) uPng 5 =
      (NewURLQueue exBase).Push [uPng] 0 :=
  ⟨frontier_admits_each_url_string_at_most_once.1 exBase
      [.push [uPng, uPng] 0, .pop, .push [uPng] 3] uPng.toStr,
   frontier_admits_each_url_string_at_most_once.2.2.2
      ((NewURLQueue exBase).Push [uPng] 0) uPng 5 (by decide)⟩


theorem uniqueURLsAux_eq (l : List GoURL) :
    ∀ (seen : List GoString) (acc : List GoURL),
      uniqueURLsAux seen acc l = acc ++ dedupFrom seen l := by
  induction l with
  | nil => intro seen acc; simp [uniqueURLsAux, dedupFrom]
  | cons u rest ih =>
    intro seen acc
    by_cases h : u.toStr ∈ seen
    · simp [uniqueURLsAux, dedupFrom, h, ih]
    · simp [uniqueURLsAux, dedupFrom, h, ih]

theorem dedupFrom_sublist (l : List GoURL) :
    ∀ seen : List GoString, (dedupFrom seen l).Sublist l := by
  induction l with
  | nil => intro seen; simp [dedupFrom]
  | cons u rest ih =>
    intro seen
    by_cases h : u.toStr ∈ seen
    · simp only [dedupFrom, if_pos h]
      exact (ih seen).cons u
    · simp only [dedupFrom, if_neg h]
      exact (ih (seen ++ [u.toStr])).cons₂ u

theorem dedupFrom_not_seen (l : List GoURL) :
    ∀ (seen : List GoString) (v : GoURL),
      v ∈ dedupFrom seen l → v.toStr ∉ seen := by
  induction l with
  | nil => intro seen v hv; simp [dedupFrom] at hv
  | cons u rest ih =>
    intro seen v hv
    by_cases h : u.toStr ∈ seen
    · rw [dedupFrom, if_pos h] at hv
      exact ih seen v hv
    · rw [dedupFrom, if_neg h] at hv
      rcases List.mem_cons.mp hv with hv | hv
      · subst hv; exact h
      · intro hvs
        exact ih (seen ++ [u.toStr]) v hv (List.mem_append_left _ hvs)

theorem dedupFrom_keys_nodup (l : List GoURL) :
    ∀ seen : List GoString,
      ((dedupFrom seen l).map GoURL.toStr).Nodup := by
  induction l with
  | nil => intro seen; simp [dedupFrom]
  | cons u rest ih =>
    intro seen
    by_cases h : u.toStr ∈ seen
    · rw [dedupFrom, if_pos h]; exact ih seen
    · rw [dedupFrom, if_neg h]
      simp only [List.map_cons, List.nodup_cons]
      refine ⟨?_, ih (seen ++ [u.toStr])⟩
      intro hu
      rcases List.mem_map.mp hu with ⟨v, hv, hveq⟩
      exact dedupFrom_not_seen rest (seen ++ [u.toStr]) v hv
        (List.mem_append_right _ (by simp [hveq]))

theorem dedupFrom_covers (l : List GoURL) :
    ∀ (seen : List GoString) (u : GoURL), u ∈ l →
      u.toStr ∈ seen ∨ u.toStr ∈ (dedupFrom seen l).map GoURL.toStr := by
  induction l with
  | nil => intro seen u hu; simp at hu
  | cons w rest ih =>
    intro seen u hu
    by_cases h : w.toStr ∈ seen
    · rw [dedupFrom, if_pos h]
      rcases List.mem_cons.mp hu with hu | hu
      · subst hu; exact Or.inl h
      · exact ih seen u hu
    · rw [dedupFrom, if_neg h]
      rcases List.mem_cons.mp hu with hu | hu
      · subst hu
        exact Or.inr (by simp)
      · rcases ih (seen ++ [w.toStr]) u hu with hs | hs
        · rcases List.mem_append.mp hs with hs | hs
          · exact Or.inl hs
          · simp at hs
            exact Or.inr (by simp [hs])
        · exact Or.inr (by simp [hs])

theorem dedupFrom_first (l : List GoURL) :
    ∀ (seen : List GoString) (v : GoURL), v ∈ dedupFrom seen l →
      l.find? (fun w => decide (w.toStr = v.toStr)) = some v := by
  induction l with
  | nil => intro seen v hv; simp [dedupFrom] at hv
  | cons u rest ih =>
    intro seen v hv
    by_cases h : u.toStr ∈ seen
    · rw [dedupFrom, if_pos h] at hv
      have hne : v.toStr ≠ u.toStr := by
        intro he
        exact dedupFrom_not_seen rest seen v hv (he ▸ h)
      rw [List.find?_cons_of_neg _ (by simp [Ne.symm hne]), ih seen v hv]
    · rw [dedupFrom, if_neg h] at hv
      rcases List.mem_cons.mp hv with hv | hv
      · subst hv
        rw [List.find?_cons_of_pos _ (by simp)]
      · have hne : v.toStr ≠ u.toStr := by
          intro he
          exact dedupFrom_not_seen rest (seen ++ [u.toStr]) v hv
            (List.mem_append_right _ (by simp [he]))
        rw [List.find?_cons_of_neg _ (by simp [Ne.symm hne]),
            ih (seen ++ [u.toStr]) v hv]


theorem default_https_scheme_nonempty (x : GoURL) :
    (if x.scheme = [] then { x with scheme := toL "https" } else x).scheme ≠ [] := by
  split
  · simp [toL]
  · next hx => exact hx

theorem normalizeURL_scheme_nonempty (pg : GoURL) (raw : GoString) (u : GoURL)
    (h : normalizeURL pg raw = some u) : u.scheme ≠ [] := by
  unfold normalizeURL at h
  dsimp only at h
  split at h
  · simp at h
  · split at h
    · simp at h
    · rw [Option.some_inj] at h
      subst h
      exact default_https_scheme_nonempty _

/-- Claim C8 (counterexample): an absolute-path reference `/relative/path`
discovered on `https://example.com/a/` resolves to the host root
`https://example.com/relative/path`, not to
`https://example.com/a/relative/path`; and a scheme-less reference on an
`http` page inherits `http`, not `https`. -/
theorem rooted_reference_resolves_to_host_root :
    (normalizeURL exPage (toL "/relative/path")).map GoURL.toStr =
      some (toL "https://example.com/relative/path") ∧
    toL "https://example.com/relative/path" ≠
      toL "https://example.com/a/relative/path" ∧
    (normalizeURL exHttpPage (toL "/x")).map GoURL.scheme = some (toL "http") := by
  decide

/-- Claim C8 (amended): extracted references have their fragment removed
and are dropped when empty or `javascript:`; a relative reference is
resolved against the page URL per RFC 3986, so `relative/path` on
`https://example.com/a/` yields `https://example.com/a/relative/path`
while the rooted `/relative/path` yields
`https://example.com/relative/path`; a reference still lacking a scheme
after resolution is given `https`; and the final link list is
deduplicated by exact serialized-string equality keeping the first
occurrence in first-seen order. -/
theorem link_normalization_and_dedup :
    (∀ (pg : GoURL) (raw : GoString),
       normalizeURL pg raw = normalizeURL pg (stripFragment raw)) ∧
    (∀ (pg : GoURL) (raw : GoString),
       stripFragment raw = [] → normalizeURL pg raw = none) ∧
    (∀ (pg : GoURL) (raw : GoString),
       goStartsWith (stripFragment raw) (toL "javascript:") = true →
       normalizeURL pg raw = none) ∧
    ((normalizeURL exPage (toL "relative/path")).map GoURL.toStr =
       some (toL "https://example.com/a/relative/path")) ∧
    ((normalizeURL exPage (toL "/relative/path")).map GoURL.toStr =
       some (toL "https://example.com/relative/path")) ∧
    (∀ (pg : GoURL) (raw : GoString) (u : GoURL),
       normalizeURL pg raw = some u → u.scheme ≠ []) ∧
    (∀ l : List GoURL,
       (uniqueURLs l).Sublist l ∧
       ((uniqueURLs l).map GoURL.toStr).Nodup ∧
       (∀ u ∈ l, u.toStr ∈ (uniqueURLs l).map GoURL.toStr) ∧
       (∀ v ∈ uniqueURLs l,
          l.find? (fun w => decide (w.toStr = v.toStr)) = some v)) := by
  refine ⟨?_, ?_, ?_, by decide, by decide, normalizeURL_scheme_nonempty, ?_⟩
  · intro pg raw
    simp [normalizeURL, stripFragment, List.takeWhile_idem]
  · intro pg raw h
    simp [normalizeURL, h]
  · intro pg raw h
    unfold normalizeURL
    rw [if_pos (Or.inr h)]
  · intro l
    have he : uniqueURLs l = dedupFrom [] l := uniqueURLsAux_eq l [] []
    refine ⟨?_, ?_, ?_, ?_⟩
    · rw [he]; exact dedupFrom_sublist l []
    · rw [he]; exact dedupFrom_keys_nodup l []
    · intro u hu
      rw [he]
      rcases dedupFrom_covers l [] u hu with hs | hs
      · simp at hs
      · exact hs
    · intro v hv
      rw [he] at hv
      exact dedupFrom_first l [] v hv

theorem link_normalization_and_dedup_witness :
    normalizeURL exPage (toL "/a#frag") = normalizeURL exPage (toL "/a") ∧
    normalizeURL exPage (toL "#frag") = none ∧
    normalizeURL exPage (toL "javascript:void(0)") = none ∧
    (∀ v ∈ uniqueURLs [exChildA, uPng, exChildA],
       [exChildA, uPng, exChildA].find?
         (fun w => decide (w.toStr = v.toStr)) = some v) :=
  ⟨by
    have h := link_normalization_and_dedup.1 exPage (toL "/a#frag")
    rwa [show stripFragment (toL "/a#frag") = toL "/a" from by decide] at h,
   by
    have h := link_normalization_and_dedup.2.1 exPage (toL "#frag")
    exact h (by decide),
   by
    have h := link_normalization_and_dedup.2.2.1 exPage (toL "javascript:void(0)")
    exact h (by decide),
   (link_normalization_and_dedup.2.2.2.2.2.2 [exChildA, uPng, exChildA]).2.2.2⟩


/-- Claim C9 (counterexample): a `Last-Modified` header that parses to
Go's zero time (e.g. `Mon, 01 Jan 0001 00:00:00 UTC`) is replaced by
`time.Now()` because of the `IsZero` re-check, so `lastModified` does not
equal the parsed header value. -/
theorem parsed_zero_lastModified_replaced_by_now :
    (processPage exBase (.response 200 (some 0) 42 (.docRefs []))).lastModified
      = 42 ∧ (42 : Nat) ≠ 0 := by decide

/-- Claim C9 (amended): on a `200` response, `lastModified` equals the
parsed `Last-Modified` value whenever the header is present and parses to
a non-zero time; when the header is absent, unparsable, or parses to the
zero time, the wall clock at fetch time is substituted. -/
theorem lastModified_from_header_or_now :
    ∀ (u : GoURL) (lm : Option Nat) (now : Nat) (body : BodyOutcome),
      (∀ t, lm = some t → t ≠ 0 →
        (processPage u (.response 200 lm now body)).lastModified = t) ∧
      ((lm = none ∨ lm = some 0) →
        (processPage u (.response 200 lm now body)).lastModified = now) := by
  intro u lm now body
  constructor
  · intro t hlm ht
    subst hlm
    cases body <;> simp [processPage, ht]
  · rintro (hlm | hlm) <;> subst hlm <;> cases body <;> simp [processPage]

theorem lastModified_from_header_or_now_witness :
    (processPage exBase (.response 200 (some 9) 42 (.docRefs []))).lastModified
      = 9 ∧
    (processPage exBase (.response 200 none 42 (.docRefs []))).lastModified
      = 42 :=
  ⟨(lastModified_from_header_or_now exBase (some 9) 42 (.docRefs [])).1 9 rfl
      (by decide),
   (lastModified_from_header_or_now exBase none 42 (.docRefs [])).2
      (Or.inl rfl)⟩

theorem hasSuffix_char (l : GoString) (c : Char) :
    goHasSuffix l [c] = true ↔ ∃ t, l = t ++ [c] := by
  unfold goHasSuffix
  rw [decide_eq_true_iff]
  exact ⟨fun ⟨t, ht⟩ => ⟨t, ht.symm⟩, fun ⟨t, ht⟩ => ⟨t, ht.symm⟩⟩

theorem hasSuffix_concat_char (t : GoString) (c : Char) :
    goHasSuffix (t ++ [c]) [c] = true :=
  (hasSuffix_char _ c).mpr ⟨t, rfl⟩

theorem hasSuffix_cons_char (a : Char) (t : GoString) (c : Char)
    (ht : t ≠ []) : goHasSuffix (a :: t) [c] = goHasSuffix t [c] := by
  unfold goHasSuffix
  have hiff : ([c] <:+ a :: t) ↔ ([c] <:+ t) := by
    rw [List.suffix_cons_iff]
    constructor
    · rintro (heq | hs)
      · cases t with
        | nil => exact absurd rfl ht
        | cons x xs => simp at heq
      · exact hs
    · exact Or.inr
  simp [hiff]

theorem goTrimSuffix_concat (t : GoString) (c : Char) :
    goTrimSuffix (t ++ [c]) [c] = t := by
  unfold goTrimSuffix
  rw [if_pos (hasSuffix_concat_char t c)]
  simp


theorem normalizePath_startsWith (p : GoString) :
    goStartsWith (NormalizePath p) (toL "/") = true := by
  unfold NormalizePath
  dsimp only
  by_cases h : goStartsWith
      (if p ≠ toL "/" ∧ goHasSuffix p (toL "/") = true
       then goTrimSuffix p (toL "/") else p) (toL "/") = true
  · rw [if_neg (not_not_intro h)]
    exact h
  · rw [if_pos h]
    rw [goStartsWith, decide_eq_true_iff]
    exact List.prefix_append _ _

theorem normalizePath_noTrailing (p : GoString)
    (h2 : goHasSuffix p (toL "//") = false) :
    NormalizePath p = toL "/" ∨
      goHasSuffix (NormalizePath p) (toL "/") = false := by
  by_cases hc : p ≠ toL "/" ∧ goHasSuffix p (toL "/") = true
  · obtain ⟨hne, hsuf⟩ := hc
    obtain ⟨t, hp⟩ := (hasSuffix_char p '/').mp hsuf
    have htne : t ≠ [] := by
      intro h0
      apply hne
      rw [hp, h0]
      rfl
    have htnosuf : goHasSuffix t (toL "/") = false := by
      by_contra hcon
      rw [Bool.not_eq_false] at hcon
      obtain ⟨s, hs⟩ := (hasSuffix_char t '/').mp hcon
      have hdbl : goHasSuffix p (toL "//") = true := by
        rw [goHasSuffix, decide_eq_true_iff]
        refine ⟨s, ?_⟩
        rw [hp, hs, List.append_assoc]
        rfl
      rw [hdbl] at h2
      cases h2
    have hp1 : (if p ≠ toL "/" ∧ goHasSuffix p (toL "/") = true
                then goTrimSuffix p (toL "/") else p) = t := by
      rw [if_pos ⟨hne, hsuf⟩, hp]
      exact goTrimSuffix_concat t '/'
    unfold NormalizePath
    dsimp only
    rw [hp1]
    by_cases hst : goStartsWith t (toL "/") = true
    · rw [if_neg (not_not_intro hst)]
      exact Or.inr htnosuf
    · rw [if_pos hst]
      right
      cases t with
      | nil => exact absurd rfl htne
      | cons x xs =>
        show goHasSuffix ('/' :: x :: xs) ['/'] = false
        rw [hasSuffix_cons_char '/' (x :: xs) '/' (by simp)]
        exact htnosuf
  · have hp1 : (if p ≠ toL "/" ∧ goHasSuffix p (toL "/") = true
                then goTrimSuffix p (toL "/") else p) = p := if_neg hc
    unfold NormalizePath
    dsimp only
    rw [hp1]
    rw [not_and_or] at hc
    rcases hc with hc | hc
    · rw [not_not] at hc
      left
      rw [if_neg (not_not_intro (by rw [hc]; rfl))]
      exact hc
    · rw [Bool.not_eq_true] at hc
      by_cases hst : goStartsWith p (toL "/") = true
      · rw [if_neg (not_not_intro hst)]
        exact Or.inr hc
      · rw [if_pos hst]
        cases p with
        | nil => exact Or.inl rfl
        | cons x xs =>
          right
          show goHasSuffix ('/' :: x :: xs) ['/'] = false
          rw [hasSuffix_cons_char '/' (x :: xs) '/' (by simp)]
          exact hc

theorem normalizePath_fixed (r : GoString)
    (hstart : goStartsWith r (toL "/") = true)
    (hr : r = toL "/" ∨ goHasSuffix r (toL "/") = false) :
    NormalizePath r = r := by
  have hp1 : (if r ≠ toL "/" ∧ goHasSuffix r (toL "/") = true
              then goTrimSuffix r (toL "/") else r) = r := by
    rcases hr with hr | hr
    · exact if_neg (fun hcon => hcon.1 hr)
    · refine if_neg ?_
      rintro ⟨h1, hcon⟩
      rw [hr] at hcon
      exact Bool.false_ne_true hcon
  unfold NormalizePath
  dsimp only
  rw [hp1, if_neg (not_not_intro hstart)]

/-- Claim C10 (counterexample): on input `a//` the result `/a/` keeps a
trailing slash while not being `/`, and `NormalizePath` is not idempotent
there (a second application gives `/a`). -/
theorem normalizePath_trailing_slash_not_removed :
    NormalizePath (toL "a//") = toL "/a/" ∧
    goHasSuffix (toL "/a/") (toL "/") = true ∧
    toL "/a/" ≠ toL "/" ∧
    NormalizePath (NormalizePath (toL "a//")) ≠ NormalizePath (toL "a//") := by
  decide

/-- Claim C10 (amended): `NormalizePath` always returns a path starting
with `/`; since it removes at most one trailing slash, for every input not
ending in `//` the result is `/` or has no trailing slash and
`NormalizePath` is idempotent at that input; and `//` itself maps to `/`. -/
theorem normalizePath_leading_slash_and_conditional_idem :
    (∀ p, goStartsWith (NormalizePath p) (toL "/") = true) ∧
    (∀ p, goHasSuffix p (toL "//") = false →
       (NormalizePath p = toL "/" ∨
        goHasSuffix (NormalizePath p) (toL "/") = false) ∧
       NormalizePath (NormalizePath p) = NormalizePath p) ∧
    NormalizePath (toL "//") = toL "/" := by
  refine ⟨normalizePath_startsWith, ?_, by decide⟩
  intro p h2
  have hnt := normalizePath_noTrailing p h2
  exact ⟨hnt, normalizePath_fixed _ (normalizePath_startsWith p) hnt⟩

theorem normalizePath_leading_slash_and_conditional_idem_witness :
    goStartsWith (NormalizePath (toL "abc/")) (toL "/") = true ∧
    (NormalizePath (toL "abc/") = toL "/" ∨
     goHasSuffix (NormalizePath (toL "abc/")) (toL "/") = false) ∧
    NormalizePath (NormalizePath (toL "abc/")) = NormalizePath (toL "abc/") :=
  ⟨normalizePath_leading_slash_and_conditional_idem.1 (toL "abc/"),
   (normalizePath_leading_slash_and_conditional_idem.2.1 (toL "abc/")
      (by decide)).1,
   (normalizePath_leading_slash_and_conditional_idem.2.1 (toL "abc/")
      (by decide)).2⟩

end Mapper
